import Mathlib

/-!
# PortHog: the port-specification parser and the listener lifecycle

A shallow embedding of `main.go`.

* Go strings are lists of characters. The parser only looks for `,`, `-`, `+`
  and the ten digits, all of them single bytes that occur in UTF-8 text only as
  themselves, so cutting a string by bytes and by characters gives the same
  pieces.
* The Go `int` is the 64-bit two's-complement integer: an `Int`, wrapped by
  `wrapInt` where the program increments it.
* The `error` values built by `fmt.Errorf` are constructors that carry the
  formatted argument; `ParseError.Error` gives the message.
* A loop that Go does not bound takes fuel: `none` says that it has not come back
  within the fuel, and a statement for every fuel says that it never does.
* What the driver does to the outside world (binds, log calls, spawned accept
  loops, closes) is recorded as a trace of events; what the outside world answers
  (the result of a bind, of an accept, of a close) is a parameter.
-/

namespace PortHog

/-! ## Strings -/

/-- A Go `string`, as the list of its characters. -/
abbrev GoString := List Char

/-- Go `strings.HasPrefix`. -/
def HasPrefix : GoString → GoString → Bool
  | _, [] => true
  | [], _ :: _ => false
  | c :: s, d :: p => c == d && HasPrefix s p

/-- Go `strings.Contains(s, substr)`: `substr` occurs at some offset of `s`. -/
def Contains : GoString → GoString → Bool
  | [], substr => HasPrefix [] substr
  | c :: s, substr => HasPrefix (c :: s) substr || Contains s substr

/-- The scan behind `strings.Split` for a one-character separator: the segment up
to the first separator, and the segments after it. -/
def splitAux (sep : Char) : GoString → GoString × List GoString
  | [] => ([], [])
  | c :: s =>
    if c = sep then ([], (splitAux sep s).1 :: (splitAux sep s).2)
    else (c :: (splitAux sep s).1, (splitAux sep s).2)

/-- Go `strings.Split(s, sep)` for the one-character separators `","` and `"-"`
used by `parsePorts`. -/
def Split (s : GoString) (sep : Char) : List GoString :=
  (splitAux sep s).1 :: (splitAux sep s).2

/-! ## Machine integers and `strconv.Atoi` -/

/-- Width of the Go `int`. -/
def intSize : Nat := 64

/-- Largest `int`. -/
def maxInt : Int := 2 ^ (intSize - 1) - 1

/-- Smallest `int`. -/
def minInt : Int := -(2 ^ (intSize - 1))

/-- Two's-complement wrap of an integer into the `int` range (Go integer
overflow wraps silently). -/
def wrapInt (x : Int) : Int := (x + 2 ^ (intSize - 1)) % 2 ^ intSize - 2 ^ (intSize - 1)

/-- Digit loop of `strconv.ParseUint` in base 10: `none` on the first byte that is
not `'0'..'9'`. -/
def parseDigits : GoString → Nat → Option Nat
  | [], acc => some acc
  | c :: s, acc =>
    if '0' ≤ c ∧ c ≤ '9' then parseDigits s (acc * 10 + (c.toNat - '0'.toNat)) else none

/-- Go `strconv.Atoi`: an optional sign, then at least one decimal digit, and the
value has to fit an `int`; `none` stands for either `*NumError`. -/
def Atoi (s : GoString) : Option Int :=
  match s with
  | [] => none
  | c :: rest =>
    let body := if c = '-' ∨ c = '+' then rest else s
    if body = [] then none
    else
      match parseDigits body 0 with
      | none => none
      | some n =>
        if c = '-' then (if n ≤ 2 ^ (intSize - 1) then some (-(n : Int)) else none)
        else (if n < 2 ^ (intSize - 1) then some (n : Int) else none)

/-! ## `parsePorts` -/

/-- The five `fmt.Errorf` sites of `parsePorts`, each with its `%s` argument. -/
inductive ParseError
  /-- Message "invalid port range: %s". -/
  | invalidRange (part : GoString)
  /-- Message "invalid start port: %s". -/
  | invalidStart (s : GoString)
  /-- Message "invalid end port: %s". -/
  | invalidEnd (s : GoString)
  /-- Message "start port must be less than or equal to end port: %s". -/
  | rangeOrder (part : GoString)
  /-- Message "invalid port: %s". -/
  | invalidPort (part : GoString)
  deriving DecidableEq, Repr

/-- The message `err.Error()` of a parse error. -/
def ParseError.Error : ParseError → GoString
  | .invalidRange part => "invalid port range: ".toList ++ part
  | .invalidStart s => "invalid start port: ".toList ++ s
  | .invalidEnd s => "invalid end port: ".toList ++ s
  | .rangeOrder part => "start port must be less than or equal to end port: ".toList ++ part
  | .invalidPort part => "invalid port: ".toList ++ part

/-- The loop `for port := start; port <= end; port++ { portList = append(portList, port) }`.
Each unit of fuel pays for one test of the loop condition; `none` means the loop
is still running when the fuel is spent. -/
def rangeLoop : Nat → Int → Int → List Int → Option (List Int)
  | 0, _, _, _ => none
  | fuel + 1, port, «end», portList =>
    if port ≤ «end» then rangeLoop fuel (wrapInt (port + 1)) «end» (portList ++ [port])
    else some portList

/-- Body of the `for _, part := range parts` loop of `parsePorts`: the new
`portList`, or the error returned. -/
def parsePart (fuel : Nat) (part : GoString) (portList : List Int) :
    Option (Except ParseError (List Int)) :=
  if Contains part "-".toList then
    match Split part '-' with
    | [p0, p1] =>
      match Atoi p0 with
      | none => some (.error (.invalidStart p0))
      | some start =>
        match Atoi p1 with
        | none => some (.error (.invalidEnd p1))
        | some «end» =>
          if start > «end» then some (.error (.rangeOrder part))
          else (rangeLoop fuel start «end» portList).map .ok
    | _ => some (.error (.invalidRange part))
  else
    match Atoi part with
    | none => some (.error (.invalidPort part))
    | some port => some (.ok (portList ++ [port]))

/-- The `for _, part := range parts` loop of `parsePorts`. -/
def parseLoop (fuel : Nat) : List GoString → List Int → Option (Except ParseError (List Int))
  | [], portList => some (.ok portList)
  | part :: parts, portList =>
    match parsePart fuel part portList with
    | none => none
    | some (.error e) => some (.error e)
    | some (.ok portList') => parseLoop fuel parts portList'

/-- The function `parsePorts(ports)`: `some (.ok portList)` for `return portList, nil`,
`some (.error e)` for `return nil, e`, and `none` when a range loop has not
finished within `fuel` iterations. -/
def parsePorts (fuel : Nat) (ports : GoString) : Option (Except ParseError (List Int)) :=
  parseLoop fuel (Split ports ',') []

/-! ## What a well-formed port specification denotes -/

/-- A decimal digit. -/
def IsDigit (c : Char) : Prop := '0' ≤ c ∧ c ≤ '9'

instance (c : Char) : Decidable (IsDigit c) := by unfold IsDigit; infer_instance

/-- Value of a string of decimal digits, most significant digit first. -/
def digitsValue (s : GoString) : Nat :=
  Nat.ofDigits 10 (s.reverse.map (fun c => c.toNat - 48))

/-- A numeral without its optional plus sign. -/
def unsign : GoString → GoString
  | '+' :: ds => ds
  | s => s

/-- A decimal integer as a port segment can spell it: an optional `+` and at
least one digit (a `-` is never part of a numeral there, it separates the two
ends of a range). -/
def IsDecimal (s : GoString) : Prop := unsign s ≠ [] ∧ ∀ c ∈ unsign s, IsDigit c

instance (s : GoString) : Decidable (IsDecimal s) := by unfold IsDecimal; infer_instance

/-- The integer a decimal numeral denotes. -/
def decimalValue (s : GoString) : Nat := digitsValue (unsign s)

/-- The ascending list `[a, a+1, ..., a+n-1]`. -/
def countUp (a : Int) : Nat → List Int
  | 0 => []
  | n + 1 => a :: countUp (a + 1) n

/-- The ascending inclusive list `[a, a+1, ..., b]` (empty when `b < a`). -/
def expandRange (a b : Int) : List Int := countUp a (b + 1 - a).toNat

/-- What a well-formed segment stands for: one port, or an inclusive range. -/
inductive Segment
  | single (n : Int)
  | range (a b : Int)
  deriving DecidableEq, Repr

/-- The ports of a segment. -/
def Segment.expand : Segment → List Int
  | .single n => [n]
  | .range a b => expandRange a b

/-- The text `part` is a well-formed segment standing for `seg`: a decimal integer
`n` that fits an `int`, or `a-b` with decimal integers `a ≤ b` that fit an `int`. -/
def WellFormed (part : GoString) : Segment → Prop
  | .single n => IsDecimal part ∧ (decimalValue part : Int) = n ∧ n ≤ maxInt
  | .range a b => ∃ sa sb : GoString, part = sa ++ '-' :: sb ∧ IsDecimal sa ∧ IsDecimal sb ∧
      (decimalValue sa : Int) = a ∧ (decimalValue sb : Int) = b ∧ a ≤ b ∧ b ≤ maxInt

/-- The range loop of the segment comes back: the segment is no range that ends
at the largest `int`. -/
def Segment.Returns : Segment → Prop
  | .single _ => True
  | .range _ b => b < maxInt

instance (seg : Segment) : Decidable seg.Returns := by
  cases seg <;> unfold Segment.Returns <;> infer_instance

/-- Number of tests of the loop condition the range loop of a segment makes. -/
def Segment.cost : Segment → Nat
  | .single _ => 0
  | .range a b => (b + 1 - a).toNat + 1

/-- The spec's `InvalidPort` kind: the three sites that report a part which
`Atoi` rejects ("invalid port", "invalid start port", "invalid end port"). -/
def ParseError.isInvalidPort : ParseError → Bool
  | .invalidStart _ => true
  | .invalidEnd _ => true
  | .invalidPort _ => true
  | _ => false

/-! ## Listeners and the effects of the driver -/

/-- Levels of the `charmbracelet/log` calls. -/
inductive Level
  | debug | info | warn | error | fatal
  deriving DecidableEq, Repr

/-- The struct `Listener`: the embedded `net.Listener` (the handle of the bound
socket) and the port. -/
structure Listener where
  sock : Nat
  Port : Int
  deriving DecidableEq, Repr

/-- What the driver does to the outside world, in program order. -/
inductive Event
  /-- The call `lc.Listen(ctx, "tcp", ":<port>")`. -/
  | listen (port : Int)
  /-- The accept loop is spawned:
  `wg.Add(1); go func() { defer wg.Done(); handleConnections(ctx, l, logger) }()`. -/
  | spawn (l : Listener)
  /-- The call `l.Accept()`. -/
  | accept (l : Listener)
  /-- The accepted connection is handed to
  `go func(c net.Conn) { defer c.Close(); ... SetLinger(0) }(conn)`. -/
  | discard (l : Listener) (conn : Nat)
  /-- The call `l.Close()`. -/
  | close (l : Listener)
  /-- A call of `logger.Debug/Info/Warn/Error/Fatal` with its message and its
  `"port"` and `"error"` fields. -/
  | log (level : Level) (msg : String) (port : Option Int) (err : Option GoString)
  deriving DecidableEq, Repr

/-- The function `startListener(ctx, wg, port, logger)`, given what `lc.Listen` returns: the
bound socket or the error. -/
def startListener (listen : Except GoString Nat) (port : Int) :
    Except GoString Listener × List Event :=
  match listen with
  | .error err => (.error ("listen failed: ".toList ++ err), [.listen port])
  | .ok sock =>
    (.ok ⟨sock, port⟩,
      [.listen port, .log .info "Port occupied successfully" (some port) none,
        .spawn ⟨sock, port⟩])

/-- The loop `for _, port := range portList` of `main`; `lc i` is what the `i`-th
call of `lc.Listen` returns, `listeners` the slice built so far. -/
def startListeners (lc : Nat → Except GoString Nat) :
    Nat → List Int → List Listener → List Listener × List Event
  | _, [], listeners => (listeners, [])
  | i, port :: portList, listeners =>
    match startListener (lc i) port with
    | (.error err, evs) =>
      ((startListeners lc (i + 1) portList listeners).1,
        evs ++ .log .error "Failed to start listener" (some port) (some err) ::
          (startListeners lc (i + 1) portList listeners).2)
    | (.ok l, evs) =>
      ((startListeners lc (i + 1) portList (listeners ++ [l])).1,
        evs ++ (startListeners lc (i + 1) portList (listeners ++ [l])).2)

/-- Where `main` stands once start-up is over. -/
inductive MainState
  /-- The call `logger.Fatal(msg, ...)`: the message is logged and the process exits. -/
  | fatal (msg : String)
  /-- Blocked in the `select` on `sigCh` and `ctx.Done()`, holding `listeners`. -/
  | running (listeners : List Listener)
  deriving DecidableEq, Repr

/-- The function `main` up to the `select`: the flag `-p`, and the outcome of each
`lc.Listen` call.  `none` when `parsePorts` has not returned within `fuel`. -/
def main (fuel : Nat) (ports : GoString) (lc : Nat → Except GoString Nat) :
    Option (MainState × List Event) :=
  if ports = [] then
    some (.fatal "No ports specified. Use -p to specify ports.",
      [.log .info "PortHog started" none none,
        .log .fatal "No ports specified. Use -p to specify ports." none none])
  else
    match parsePorts fuel ports with
    | none => none
    | some (.error err) =>
      some (.fatal "Failed to parse ports",
        [.log .info "PortHog started" none none,
          .log .fatal "Failed to parse ports" none (some err.Error)])
    | some (.ok portList) =>
      if (startListeners lc 0 portList []).1.length = 0 then
        some (.fatal "No valid ports available",
          .log .info "PortHog started" none none :: (startListeners lc 0 portList []).2 ++
            [.log .fatal "No valid ports available" none none])
      else
        some (.running (startListeners lc 0 portList []).1,
          .log .info "PortHog started" none none :: (startListeners lc 0 portList []).2)

/-- The function `isNetClosingError(err)`, on the message `err.Error()`. -/
def isNetClosingError (err : GoString) : Bool :=
  Contains err "use of closed network connection".toList

/-- What `l.Accept()` returns: a connection, or an error with its message. -/
inductive AcceptResult
  | conn (c : Nat)
  | err (msg : GoString)
  deriving DecidableEq, Repr

/-- What one pass of the `for` loop of `handleConnections` observes: whether
`ctx.Done()` is ready at the `select`, and what `l.Accept()` returns if it is
called. -/
structure Iteration where
  done : Bool
  accept : AcceptResult
  deriving DecidableEq, Repr

/-- Whether `handleConnections` is still in its loop. -/
inductive LoopState
  | looping
  | returned
  deriving DecidableEq, Repr

/-- The `default:` branch of the `select`: accept, then log or discard. -/
def acceptBranch (l : Listener) : AcceptResult → List Event
  | .err msg =>
    if !isNetClosingError msg then
      [.accept l, .log .error "Accept error" (some l.Port) (some msg)]
    else [.accept l]
  | .conn c =>
    [.accept l, .log .debug "Received connection" (some l.Port) none, .discard l c]

/-- One pass of the `for` loop of `handleConnections`; the `return` runs the
deferred `l.Close()`. -/
def handleStep (l : Listener) (it : Iteration) : LoopState × List Event :=
  if it.done then
    (.returned, [.log .debug "Stopping listener" (some l.Port) none, .close l])
  else (.looping, acceptBranch l it.accept)

/-- The function `handleConnections(ctx, l, logger)` run over the observations of its first
passes. -/
def handleConnections (l : Listener) : List Iteration → LoopState × List Event
  | [] => (.looping, [])
  | it :: its =>
    match handleStep l it with
    | (.returned, evs) => (.returned, evs)
    | (.looping, evs) => ((handleConnections l its).1, evs ++ (handleConnections l its).2)

/-- The loop of `shutdown(ctx, listeners, logger)`; `closeErr i` is what the `i`-th
call of `l.Close()` returns (`none` for `nil`).  The function has no result: its
trace is all it leaves. -/
def shutdown (closeErr : Nat → Option GoString) : Nat → List Listener → List Event
  | _, [] => []
  | i, l :: listeners =>
    [.log .debug "Closing listener" (some l.Port) none, .close l] ++
      (match closeErr i with
        | some err => [.log .error "Error closing listener" (some l.Port) (some err)]
        | none => []) ++
      shutdown closeErr (i + 1) listeners

/-- The listener a successful `lc.Listen` yields for `port`. -/
def listenerOf (port : Int) : Except GoString Nat → Option Listener
  | .ok sock => some ⟨sock, port⟩
  | .error _ => none

/-- Whether `lc.Listen` returned a socket. -/
def bound : Except GoString Nat → Bool
  | .ok _ => true
  | .error _ => false

/-- The ports `lc.Listen` was called with, in order. -/
def listenCalls : List Event → List Int
  | [] => []
  | .listen port :: evs => port :: listenCalls evs
  | _ :: evs => listenCalls evs

/-- The listeners `Close` was called on, in order. -/
def closeCalls : List Event → List Listener
  | [] => []
  | .close l :: evs => l :: closeCalls evs
  | _ :: evs => closeCalls evs

/-- The log calls of a trace at a given level, in order. -/
def logsAt (level : Level) : List Event → List Event
  | [] => []
  | .log lv msg port err :: evs =>
    if lv = level then .log lv msg port err :: logsAt level evs else logsAt level evs
  | _ :: evs => logsAt level evs

end PortHog

/-! # Theorems -/

namespace PortHog

/-! ## Machine integers, strings and `Atoi` -/

theorem maxInt_eq : maxInt = 9223372036854775807 := by norm_num [maxInt, intSize]

theorem minInt_eq : minInt = -9223372036854775808 := by norm_num [minInt, intSize]

theorem wrapInt_eq (x : Int) :
    wrapInt x = (x + 9223372036854775808) % 18446744073709551616 - 9223372036854775808 := by
  norm_num [wrapInt, intSize]

theorem wrapInt_le (x : Int) : wrapInt x ≤ maxInt := by
  rw [wrapInt_eq, maxInt_eq]; omega

theorem wrapInt_of_fits (x : Int) (h1 : minInt ≤ x) (h2 : x ≤ maxInt) : wrapInt x = x := by
  rw [wrapInt_eq]; rw [minInt_eq] at h1; rw [maxInt_eq] at h2; omega

theorem rangeLoop_maxInt (fuel : Nat) : ∀ (port : Int) (portList : List Int),
    port ≤ maxInt → rangeLoop fuel port maxInt portList = none := by
  induction fuel with
  | zero => intro port portList _; rfl
  | succ n ih =>
    intro port portList h
    rw [rangeLoop, if_pos h]
    exact ih _ _ (wrapInt_le _)

theorem expandRange_cons (a b : Int) (h : a ≤ b) :
    expandRange a b = a :: expandRange (a + 1) b := by
  unfold expandRange
  have : (b + 1 - a).toNat = (b + 1 - (a + 1)).toNat + 1 := by omega
  rw [this, countUp]

theorem expandRange_empty (a b : Int) (h : b < a) : expandRange a b = [] := by
  unfold expandRange
  have : (b + 1 - a).toNat = 0 := by omega
  rw [this]; rfl

theorem mem_countUp (n : Nat) : ∀ (a x : Int), x ∈ countUp a n ↔ a ≤ x ∧ x < a + n := by
  induction n with
  | zero => intro a x; simp [countUp]
  | succ n ih => intro a x; simp [countUp, ih]; omega

theorem mem_expandRange (a b x : Int) : x ∈ expandRange a b ↔ a ≤ x ∧ x ≤ b := by
  unfold expandRange; rw [mem_countUp]; omega

theorem rangeLoop_eq (n : Nat) : ∀ (fuel : Nat) (port «end» : Int) (portList : List Int),
    minInt ≤ port → «end» < maxInt → port ≤ «end» + 1 → («end» + 1 - port).toNat = n → n < fuel →
    rangeLoop fuel port «end» portList = some (portList ++ expandRange port «end») := by
  induction n with
  | zero =>
    intro fuel port e portList _ _ h3 h4 h5
    obtain ⟨f, rfl⟩ : ∃ f, fuel = f + 1 := ⟨fuel - 1, by omega⟩
    have hlt : e < port := by omega
    rw [rangeLoop, if_neg (by omega), expandRange_empty _ _ hlt, List.append_nil]
  | succ n ih =>
    intro fuel port e portList h1 h2 h3 h4 h5
    obtain ⟨f, rfl⟩ : ∃ f, fuel = f + 1 := ⟨fuel - 1, by omega⟩
    have hle : port ≤ e := by omega
    have hw : wrapInt (port + 1) = port + 1 :=
      wrapInt_of_fits _ (by omega) (by omega)
    rw [rangeLoop, if_pos hle, hw, ih f (port + 1) e _ (by omega) h2 (by omega) (by omega) (by omega),
      expandRange_cons _ _ hle]
    simp

theorem HasPrefix_iff (s p : GoString) : HasPrefix s p = true ↔ p <+: s := by
  induction s generalizing p with
  | nil => cases p <;> simp [HasPrefix]
  | cons c s ih =>
    cases p with
    | nil => simp [HasPrefix]
    | cons d p =>
      rw [HasPrefix, Bool.and_eq_true, beq_iff_eq, ih, List.cons_prefix_cons]
      exact ⟨fun h => ⟨h.1.symm, h.2⟩, fun h => ⟨h.1.symm, h.2⟩⟩

theorem Contains_iff (s substr : GoString) : Contains s substr = true ↔ substr <:+: s := by
  induction s with
  | nil =>
    rw [Contains, HasPrefix_iff]
    simp [List.prefix_nil, List.infix_nil]
  | cons c s ih =>
    rw [Contains, Bool.or_eq_true, HasPrefix_iff, ih, List.infix_cons_iff]

theorem Contains_char (s : GoString) (c : Char) : Contains s [c] = true ↔ c ∈ s := by
  induction s with
  | nil => simp [Contains, HasPrefix]
  | cons d s ih =>
    rw [Contains, Bool.or_eq_true, ih, List.mem_cons]
    simp only [HasPrefix, Bool.and_true, beq_iff_eq]
    exact ⟨fun h => h.imp Eq.symm id, fun h => h.imp Eq.symm id⟩

theorem Split_cons_sep (sep : Char) (s : GoString) :
    Split (sep :: s) sep = [] :: Split s sep := by
  simp [Split, splitAux]

theorem Split_cons_ne (sep c : Char) (s : GoString) (h : c ≠ sep) :
    Split (c :: s) sep = (c :: (Split s sep).head!) :: (Split s sep).tail := by
  simp [Split, splitAux, h]

theorem Split_of_not_mem (sep : Char) (s : GoString) (h : sep ∉ s) : Split s sep = [s] := by
  induction s with
  | nil => rfl
  | cons c s ih =>
    have hc : c ≠ sep := fun e => h (by simp [e])
    have hs : sep ∉ s := fun e => h (by simp [e])
    have := ih hs
    simp only [Split, List.cons.injEq] at this
    simp [Split, splitAux, hc, this.1, this.2]

theorem Split_append_sep (sep : Char) (a b : GoString) (h : sep ∉ a) :
    Split (a ++ sep :: b) sep = a :: Split b sep := by
  induction a with
  | nil => exact Split_cons_sep sep b
  | cons c a ih =>
    have hc : c ≠ sep := fun e => h (by simp [e])
    have hs : sep ∉ a := fun e => h (by simp [e])
    have := ih hs
    simp only [Split, List.cons.injEq] at this
    simp [Split, splitAux, hc, this.1, this.2]

theorem not_mem_of_mem_Split (sep : Char) (s p : GoString) (h : p ∈ Split s sep) : sep ∉ p := by
  induction s generalizing p with
  | nil => simp [Split, splitAux] at h; simp [h]
  | cons c s ih =>
    by_cases hc : c = sep
    · subst hc
      rw [Split_cons_sep] at h
      rcases List.mem_cons.1 h with h | h
      · simp [h]
      · exact ih p h
    · have h1 := ih (splitAux sep s).1 (by simp [Split])
      simp only [Split, splitAux, hc, if_false, List.mem_cons] at h
      rcases h with h | h
      · subst h
        intro hm
        rcases List.mem_cons.1 hm with e | e
        · exact hc e.symm
        · exact h1 e
      · exact ih p (by simp [Split, h])

theorem join_Split (sep : Char) (s : GoString) :
    List.intercalate [sep] (Split s sep) = s := by
  induction s with
  | nil => rfl
  | cons c s ih =>
    by_cases hc : c = sep
    · subst hc
      rw [Split_cons_sep]
      simp only [Split] at ih ⊢
      simp [List.intercalate, List.intersperse] at ih ⊢
      exact ih
    · simp only [Split, splitAux, hc, if_false] at ih ⊢
      cases h2 : (splitAux sep s).2 with
      | nil => rw [h2] at ih; simp [List.intercalate, List.intersperse] at ih ⊢; exact ih
      | cons x xs => rw [h2] at ih; simp [List.intercalate, List.intersperse] at ih ⊢; exact ih

theorem Split_join (sep : Char) (seg : GoString) (segs : List GoString)
    (h : ∀ p ∈ seg :: segs, sep ∉ p) :
    Split (List.intercalate [sep] (seg :: segs)) sep = seg :: segs := by
  induction segs generalizing seg with
  | nil =>
    simp [List.intercalate, List.intersperse]
    exact Split_of_not_mem sep seg (h seg (by simp))
  | cons x xs ih =>
    have : List.intercalate [sep] (seg :: x :: xs) = seg ++ sep :: List.intercalate [sep] (x :: xs) := by
      simp [List.intercalate, List.intersperse]
    rw [this, Split_append_sep sep _ _ (h seg (by simp)), ih x (fun p hp => h p (by simp [List.mem_cons.1 hp]))]

theorem digitsValue_cons (c : Char) (s : GoString) :
    digitsValue (c :: s) = (c.toNat - 48) * 10 ^ s.length + digitsValue s := by
  simp [digitsValue, Nat.ofDigits_append, Nat.ofDigits_singleton]
  ring

theorem parseDigits_of_digits (s : GoString) : ∀ acc : Nat, (∀ c ∈ s, IsDigit c) →
    parseDigits s acc = some (acc * 10 ^ s.length + digitsValue s) := by
  induction s with
  | nil => intro acc _; simp [parseDigits, digitsValue]
  | cons c s ih =>
    intro acc h
    have hc : '0' ≤ c ∧ c ≤ '9' := h c (by simp)
    rw [parseDigits, if_pos hc, ih _ (fun d hd => h d (by simp [hd])), digitsValue_cons]
    congr 1
    have : '0'.toNat = 48 := rfl
    rw [this, List.length_cons]
    ring

theorem parseDigits_of_not_digits (s : GoString) : ∀ acc : Nat, (¬ ∀ c ∈ s, IsDigit c) →
    parseDigits s acc = none := by
  induction s with
  | nil => intro acc h; simp at h
  | cons c s ih =>
    intro acc h
    by_cases hc : '0' ≤ c ∧ c ≤ '9'
    · rw [parseDigits, if_pos hc]
      apply ih
      intro h2
      apply h
      intro d hd
      rcases List.mem_cons.1 hd with e | e
      · subst e; exact hc
      · exact h2 d e
    · rw [parseDigits, if_neg hc]

theorem unsign_of_ne (c : Char) (s : GoString) (h : c ≠ '+') : unsign (c :: s) = c :: s := by
  unfold unsign
  split
  · rename_i heq; cases heq; exact absurd rfl h
  · rfl

theorem Atoi_eq_some_iff (s : GoString) (hs : '-' ∉ s) (n : Int) :
    Atoi s = some n ↔ IsDecimal s ∧ (decimalValue s : Int) = n ∧ n ≤ maxInt := by
  cases s with
  | nil => simp [Atoi, IsDecimal, unsign]
  | cons c rest =>
    have hc : c ≠ '-' := fun e => hs (by simp [e])
    have hbody : (if c = '-' ∨ c = '+' then rest else c :: rest) = unsign (c :: rest) := by
      by_cases hp : c = '+'
      · subst hp; simp [unsign]
      · rw [unsign_of_ne c rest hp]; simp [hc, hp]
    simp only [Atoi]
    rw [hbody]
    simp only [hc, if_false]
    by_cases hne : unsign (c :: rest) = []
    · simp [hne, IsDecimal]
    · rw [if_neg hne]
      by_cases hd : ∀ d ∈ unsign (c :: rest), IsDigit d
      · rw [parseDigits_of_digits _ _ hd]
        simp only [zero_mul, zero_add]
        have hI : IsDecimal (c :: rest) := ⟨hne, hd⟩
        have h63 : (2 : Nat) ^ (intSize - 1) = 9223372036854775808 := by norm_num [intSize]
        rw [h63, maxInt_eq]
        unfold decimalValue
        by_cases hlt : digitsValue (unsign (c :: rest)) < 9223372036854775808
        · rw [if_pos hlt]
          simp only [Option.some.injEq, hI, true_and]
          constructor
          · intro h; subst h; exact ⟨rfl, by omega⟩
          · intro h; exact h.1
        · rw [if_neg hlt]
          simp only [hI, true_and]
          constructor
          · intro h; cases h
          · intro h; omega
      · rw [parseDigits_of_not_digits _ _ hd]
        simp [IsDecimal, hd]

theorem Atoi_nil : Atoi [] = none := rfl

/-! ## One segment -/

theorem dash_toList : "-".toList = ['-'] := rfl

theorem not_isDigit_dash : ¬ IsDigit '-' := by decide

theorem IsDecimal.no_dash {s : GoString} (h : IsDecimal s) : '-' ∉ s := by
  cases s with
  | nil => simp
  | cons c rest =>
    by_cases hp : c = '+'
    · subst hp
      have h2 : ∀ d ∈ rest, IsDigit d := h.2
      intro hm
      rcases List.mem_cons.1 hm with e | e
      · exact absurd e (by decide)
      · exact not_isDigit_dash (h2 _ e)
    · have h2 : ∀ d ∈ c :: rest, IsDigit d := by
        have := h.2
        rwa [unsign_of_ne c rest hp] at this
      intro hm
      exact not_isDigit_dash (h2 _ hm)

theorem Atoi_of_decimal {s : GoString} (h : IsDecimal s) (hfit : (decimalValue s : Int) ≤ maxInt) :
    Atoi s = some (decimalValue s : Int) :=
  (Atoi_eq_some_iff s h.no_dash _).2 ⟨h, rfl, hfit⟩

theorem Atoi_of_not_decimal {s : GoString} (hs : '-' ∉ s) (h : ¬ IsDecimal s) : Atoi s = none := by
  cases hA : Atoi s with
  | none => rfl
  | some n => exact absurd ((Atoi_eq_some_iff s hs n).1 hA).1 h

theorem Atoi_of_not_fit {s : GoString} (hs : '-' ∉ s) (h : maxInt < (decimalValue s : Int)) :
    Atoi s = none := by
  cases hA : Atoi s with
  | none => rfl
  | some n =>
    have := (Atoi_eq_some_iff s hs n).1 hA
    omega

theorem Split_dash_pair (part p0 p1 : GoString) :
    Split part '-' = [p0, p1] ↔ part = p0 ++ '-' :: p1 ∧ '-' ∉ p0 ∧ '-' ∉ p1 := by
  constructor
  · intro h
    have hj := join_Split '-' part
    rw [h] at hj
    refine ⟨?_, ?_, ?_⟩
    · rw [← hj]; simp [List.intercalate, List.intersperse]
    · exact not_mem_of_mem_Split '-' part p0 (by simp [h])
    · exact not_mem_of_mem_Split '-' part p1 (by simp [h])
  · rintro ⟨rfl, h0, h1⟩
    rw [Split_append_sep _ _ _ h0, Split_of_not_mem _ _ h1]

theorem Split_length (sep : Char) (s : GoString) :
    (Split s sep).length = s.count sep + 1 := by
  induction s with
  | nil => rfl
  | cons c s ih =>
    by_cases hc : c = sep
    · subst hc
      rw [Split_cons_sep, List.length_cons, ih, List.count_cons_self]
    · have : (Split (c :: s) sep).length = (Split s sep).length := by
        simp [Split, splitAux, hc]
      rw [this, ih, List.count_cons_of_ne (Ne.symm hc)]

theorem rangeLoop_some (fuel : Nat) : ∀ (port «end» : Int) (portList r : List Int),
    minInt ≤ port → «end» < maxInt → port ≤ «end» + 1 →
    rangeLoop fuel port «end» portList = some r → r = portList ++ expandRange port «end» := by
  induction fuel with
  | zero => intro port e portList r _ _ _ h; simp [rangeLoop] at h
  | succ f ih =>
    intro port e portList r h1 h2 h3 h
    rw [rangeLoop] at h
    by_cases hle : port ≤ e
    · rw [if_pos hle, wrapInt_of_fits _ (by omega) (by omega)] at h
      rw [ih _ _ _ _ (by omega) h2 (by omega) h, expandRange_cons _ _ hle]
      simp
    · rw [if_neg hle] at h
      rw [expandRange_empty _ _ (by omega)]
      simpa using h.symm

theorem rangeLoop_returns {fuel : Nat} {start «end» : Int} {portList r : List Int}
    (h0 : 0 ≤ start) (h1 : start ≤ «end») (h2 : «end» ≤ maxInt)
    (h : rangeLoop fuel start «end» portList = some r) :
    «end» < maxInt ∧ r = portList ++ expandRange start «end» := by
  have hlt : «end» < maxInt := by
    rcases lt_or_eq_of_le h2 with h3 | h3
    · exact h3
    · subst h3
      rw [rangeLoop_maxInt fuel start portList h1] at h
      cases h
  have hm := minInt_eq
  exact ⟨hlt, rangeLoop_some fuel _ _ _ _ (by omega) hlt (by omega) h⟩

theorem parsePart_single {part : GoString} {n : Int} (h : WellFormed part (.single n))
    (fuel : Nat) (portList : List Int) :
    parsePart fuel part portList = some (.ok (portList ++ [n])) := by
  obtain ⟨hd, hv, hfit⟩ := h
  have hc : ¬ (Contains part "-".toList = true) := by
    rw [dash_toList, Contains_char]; exact hd.no_dash
  rw [parsePart, if_neg hc, Atoi_of_decimal hd (by omega), hv]

theorem parsePart_range_split {sa sb : GoString} (ha : '-' ∉ sa) (hb : '-' ∉ sb)
    (fuel : Nat) (portList : List Int) :
    parsePart fuel (sa ++ '-' :: sb) portList =
      match Atoi sa with
      | none => some (.error (.invalidStart sa))
      | some start =>
        match Atoi sb with
        | none => some (.error (.invalidEnd sb))
        | some «end» =>
          if start > «end» then some (.error (.rangeOrder (sa ++ '-' :: sb)))
          else (rangeLoop fuel start «end» portList).map .ok := by
  have hc : Contains (sa ++ '-' :: sb) "-".toList = true := by
    rw [dash_toList, Contains_char]; simp
  have hs : Split (sa ++ '-' :: sb) '-' = [sa, sb] := (Split_dash_pair _ _ _).2 ⟨rfl, ha, hb⟩
  rw [parsePart, if_pos hc, hs]

theorem parsePart_range {part : GoString} {a b : Int} (h : WellFormed part (.range a b))
    (hb : b < maxInt) (fuel : Nat) (hf : (Segment.range a b).cost ≤ fuel) (portList : List Int) :
    parsePart fuel part portList = some (.ok (portList ++ expandRange a b)) := by
  obtain ⟨sa, sb, rfl, hda, hdb, hva, hvb, hab, hfit⟩ := h
  rw [parsePart_range_split hda.no_dash hdb.no_dash, Atoi_of_decimal hda (by omega),
    Atoi_of_decimal hdb (by omega), hva, hvb]
  simp only [gt_iff_lt, not_lt.2 hab, if_false]
  have hm := minInt_eq
  have ha0 : (0 : Int) ≤ a := by rw [← hva]; exact Int.natCast_nonneg _
  simp only [Segment.cost] at hf
  rw [rangeLoop_eq _ fuel a b portList (by omega) hb (by omega) rfl (by omega)]
  rfl

theorem parsePart_range_maxInt {part : GoString} {a : Int} (h : WellFormed part (.range a maxInt))
    (fuel : Nat) (portList : List Int) : parsePart fuel part portList = none := by
  obtain ⟨sa, sb, rfl, hda, hdb, hva, hvb, hab, hfit⟩ := h
  rw [parsePart_range_split hda.no_dash hdb.no_dash, Atoi_of_decimal hda (by omega),
    Atoi_of_decimal hdb (by omega), hva, hvb]
  simp only [gt_iff_lt, not_lt.2 hab, if_false]
  rw [rangeLoop_maxInt fuel a portList hab]
  rfl

theorem parsePart_wellFormed {part : GoString} {seg : Segment} (h : WellFormed part seg)
    (hr : seg.Returns) (fuel : Nat) (hf : seg.cost ≤ fuel) (portList : List Int) :
    parsePart fuel part portList = some (.ok (portList ++ seg.expand)) := by
  cases seg with
  | single n => exact parsePart_single h fuel portList
  | range a b => exact parsePart_range h hr fuel hf portList

theorem expandRange_ne_nil {a b : Int} (h : a ≤ b) : expandRange a b ≠ [] := by
  rw [expandRange_cons a b h]; simp

theorem WellFormed.expand_ne_nil {part : GoString} {seg : Segment} (h : WellFormed part seg) :
    seg.expand ≠ [] := by
  cases seg with
  | single n => simp [Segment.expand]
  | range a b =>
    obtain ⟨sa, sb, _, _, _, _, _, hab, _⟩ := h
    exact expandRange_ne_nil hab

theorem WellFormed.expand_bounds {part : GoString} {seg : Segment} (h : WellFormed part seg) :
    ∀ p ∈ seg.expand, 0 ≤ p ∧ p ≤ maxInt := by
  cases seg with
  | single n =>
    obtain ⟨_, hv, hfit⟩ := h
    intro p hp
    simp only [Segment.expand, List.mem_singleton] at hp
    subst hp
    exact ⟨by rw [← hv]; exact Int.natCast_nonneg _, hfit⟩
  | range a b =>
    obtain ⟨sa, sb, _, _, _, hva, _, hab, hfit⟩ := h
    intro p hp
    simp only [Segment.expand, mem_expandRange] at hp
    have ha0 : (0 : Int) ≤ a := by rw [← hva]; exact Int.natCast_nonneg _
    omega

theorem parsePart_ok_inv {fuel : Nat} {part : GoString} {portList r : List Int}
    (h : parsePart fuel part portList = some (.ok r)) :
    ∃ seg, WellFormed part seg ∧ seg.Returns ∧ r = portList ++ seg.expand := by
  by_cases hc : Contains part "-".toList = true
  · rcases hsp : Split part '-' with _ | ⟨p0, _ | ⟨p1, _ | ⟨p2, t⟩⟩⟩
    · rw [parsePart, if_pos hc, hsp] at h; simp at h
    · rw [parsePart, if_pos hc, hsp] at h; simp at h
    · obtain ⟨rfl, h0, h1⟩ := (Split_dash_pair part p0 p1).1 hsp
      rw [parsePart_range_split h0 h1] at h
      cases hA : Atoi p0 with
      | none => rw [hA] at h; simp at h
      | some a =>
        cases hB : Atoi p1 with
        | none => rw [hA, hB] at h; simp at h
        | some b =>
          rw [hA, hB] at h
          simp only at h
          obtain ⟨hda, hva, hfa⟩ := (Atoi_eq_some_iff p0 h0 a).1 hA
          obtain ⟨hdb, hvb, hfb⟩ := (Atoi_eq_some_iff p1 h1 b).1 hB
          by_cases hgt : a > b
          · rw [if_pos hgt] at h; simp at h
          · rw [if_neg hgt] at h
            have hab : a ≤ b := not_lt.1 hgt
            cases hR : rangeLoop fuel a b portList with
            | none => rw [hR] at h; simp at h
            | some r2 =>
              rw [hR] at h
              simp only [Option.map_some', Option.some.injEq, Except.ok.injEq] at h
              subst h
              have ha0 : (0 : Int) ≤ a := by rw [← hva]; exact Int.natCast_nonneg _
              obtain ⟨hlt, hr⟩ := rangeLoop_returns ha0 hab hfb hR
              exact ⟨.range a b, ⟨p0, p1, rfl, hda, hdb, hva, hvb, hab, hfb⟩, hlt, hr⟩
    · rw [parsePart, if_pos hc, hsp] at h; simp at h
  · rw [parsePart, if_neg hc] at h
    rw [dash_toList, Contains_char] at hc
    cases hA : Atoi part with
    | none => rw [hA] at h; simp at h
    | some n =>
      rw [hA] at h
      simp only [Option.some.injEq, Except.ok.injEq] at h
      obtain ⟨hd, hv, hf⟩ := (Atoi_eq_some_iff part hc n).1 hA
      exact ⟨.single n, ⟨hd, hv, hf⟩, trivial, h.symm⟩

theorem parsePart_rangeOrder {sa sb : GoString} (ha : IsDecimal sa) (hb : IsDecimal sb)
    (hfit : (decimalValue sa : Int) ≤ maxInt) (hgt : decimalValue sb < decimalValue sa)
    (fuel : Nat) (portList : List Int) :
    parsePart fuel (sa ++ '-' :: sb) portList =
      some (.error (.rangeOrder (sa ++ '-' :: sb))) := by
  have hgt2 : (decimalValue sa : Int) > (decimalValue sb : Int) := by exact_mod_cast hgt
  rw [parsePart_range_split ha.no_dash hb.no_dash, Atoi_of_decimal ha hfit,
    Atoi_of_decimal hb (by omega)]
  simp only [hgt2, if_true]

theorem parsePart_invalidRange {part : GoString} (h : 2 ≤ part.count '-')
    (fuel : Nat) (portList : List Int) :
    parsePart fuel part portList = some (.error (.invalidRange part)) := by
  have hm : '-' ∈ part := List.count_pos_iff.1 (by omega)
  have hc : Contains part "-".toList = true := by rw [dash_toList, Contains_char]; exact hm
  have hl := Split_length '-' part
  rw [parsePart, if_pos hc]
  rcases hsp : Split part '-' with _ | ⟨p0, _ | ⟨p1, _ | ⟨p2, t⟩⟩⟩
  · rfl
  · rfl
  · rw [hsp] at hl; simp at hl; omega
  · rfl

theorem parsePart_invalidPort {part : GoString} (hs : '-' ∉ part) (h : ¬ IsDecimal part)
    (fuel : Nat) (portList : List Int) :
    parsePart fuel part portList = some (.error (.invalidPort part)) := by
  have hc : ¬ (Contains part "-".toList = true) := by rw [dash_toList, Contains_char]; exact hs
  rw [parsePart, if_neg hc, Atoi_of_not_decimal hs h]

theorem parsePart_invalidEnds {sa sb : GoString} (ha : '-' ∉ sa) (hb : '-' ∉ sb)
    (h : ¬ IsDecimal sa ∨ ¬ IsDecimal sb) (fuel : Nat) (portList : List Int) :
    parsePart fuel (sa ++ '-' :: sb) portList = some (.error (.invalidStart sa)) ∨
      parsePart fuel (sa ++ '-' :: sb) portList = some (.error (.invalidEnd sb)) := by
  rw [parsePart_range_split ha hb]
  cases hA : Atoi sa with
  | none => exact Or.inl rfl
  | some a =>
    have hda := ((Atoi_eq_some_iff sa ha a).1 hA).1
    have hnb : ¬ IsDecimal sb := h.resolve_left (fun h2 => h2 hda)
    rw [Atoi_of_not_decimal hb hnb]
    exact Or.inr rfl

/-! ## The segment loop -/

theorem parseLoop_prefix (fuel : Nat) (rest : List GoString) :
    ∀ (pre : List GoString) (segs : List Segment) (portList : List Int),
    List.Forall₂ WellFormed pre segs → (∀ seg ∈ segs, seg.Returns) →
    (∀ seg ∈ segs, seg.cost ≤ fuel) →
    parseLoop fuel (pre ++ rest) portList =
      parseLoop fuel rest (portList ++ segs.flatMap Segment.expand) := by
  intro pre segs portList h
  induction h generalizing portList with
  | nil => intro _ _; simp
  | cons hw _ ih =>
    intro hr hf
    rw [List.cons_append, parseLoop,
      parsePart_wellFormed hw (hr _ (by simp)) fuel (hf _ (by simp))]
    simp only
    rw [ih _ (fun s hs => hr s (by simp [hs])) (fun s hs => hf s (by simp [hs]))]
    simp

theorem parseLoop_ok_inv (fuel : Nat) : ∀ (parts : List GoString) (portList r : List Int),
    parseLoop fuel parts portList = some (.ok r) →
    ∃ segs, List.Forall₂ WellFormed parts segs ∧ (∀ seg ∈ segs, seg.Returns) ∧
      r = portList ++ segs.flatMap Segment.expand := by
  intro parts
  induction parts with
  | nil =>
    intro portList r h
    simp only [parseLoop, Option.some.injEq, Except.ok.injEq] at h
    exact ⟨[], List.Forall₂.nil, by simp, by simp [h]⟩
  | cons part parts ih =>
    intro portList r h
    rw [parseLoop] at h
    cases hP : parsePart fuel part portList with
    | none => rw [hP] at h; simp at h
    | some x =>
      cases x with
      | error e => rw [hP] at h; simp at h
      | ok l =>
        rw [hP] at h
        simp only at h
        obtain ⟨seg, hw, hr, rfl⟩ := parsePart_ok_inv hP
        obtain ⟨segs, hws, hrs, rfl⟩ := ih _ _ h
        refine ⟨seg :: segs, List.Forall₂.cons hw hws, ?_, by simp⟩
        intro s hs
        rcases List.mem_cons.1 hs with e | e
        · subst e; exact hr
        · exact hrs s e

/-! ## The reservation loop, the accept loop and shutdown -/

theorem listenCalls_append (xs ys : List Event) :
    listenCalls (xs ++ ys) = listenCalls xs ++ listenCalls ys := by
  induction xs with
  | nil => rfl
  | cons e xs ih => cases e <;> simp [listenCalls, ih]

theorem closeCalls_append (xs ys : List Event) :
    closeCalls (xs ++ ys) = closeCalls xs ++ closeCalls ys := by
  induction xs with
  | nil => rfl
  | cons e xs ih => cases e <;> simp [closeCalls, ih]

theorem logsAt_append (level : Level) (xs ys : List Event) :
    logsAt level (xs ++ ys) = logsAt level xs ++ logsAt level ys := by
  induction xs with
  | nil => rfl
  | cons e xs ih =>
    cases e with
    | log lv msg port err =>
      by_cases h : lv = level <;> simp [logsAt, ih, h]
    | _ => simp [logsAt, ih]

theorem startListeners_listenCalls (lc : Nat → Except GoString Nat) (portList : List Int) :
    ∀ (i : Nat) (listeners : List Listener),
    listenCalls (startListeners lc i portList listeners).2 = portList := by
  induction portList with
  | nil => intro i listeners; rfl
  | cons port portList ih =>
    intro i listeners
    rw [startListeners]
    cases h : lc i with
    | error err => simp [startListener, listenCalls, ih]
    | ok sock => simp [startListener, listenCalls, ih]

theorem listenerOf_ok (port : Int) (sock : Nat) :
    listenerOf port (.ok sock) = some ⟨sock, port⟩ := rfl

theorem listenerOf_error (port : Int) (err : GoString) :
    listenerOf port (.error err) = none := rfl

theorem bound_ok (sock : Nat) : bound (.ok sock) = true := rfl

theorem bound_error (err : GoString) : bound (.error err) = false := rfl

theorem startListeners_listeners (lc : Nat → Except GoString Nat) (portList : List Int) :
    ∀ (i : Nat) (listeners : List Listener),
    (startListeners lc i portList listeners).1 =
      listeners ++ (portList.enumFrom i).filterMap (fun p => listenerOf p.2 (lc p.1)) := by
  induction portList with
  | nil => intro i listeners; simp [startListeners]
  | cons port portList ih =>
    intro i listeners
    rw [startListeners]
    cases h : lc i with
    | error err =>
      simp [startListener, ih, List.enumFrom, List.filterMap_cons, listenerOf_error, h]
    | ok sock =>
      simp [startListener, ih, List.enumFrom, List.filterMap_cons, listenerOf_ok, h]

theorem filterMap_listenerOf_ports (lc : Nat → Except GoString Nat) (ps : List (Nat × Int)) :
    (ps.filterMap (fun p => listenerOf p.2 (lc p.1))).map Listener.Port =
      (ps.filter (fun p => bound (lc p.1))).map Prod.snd := by
  induction ps with
  | nil => rfl
  | cons p ps ih =>
    cases h : lc p.1 with
    | error err =>
      simp [List.filterMap_cons, List.filter_cons, listenerOf_error, bound_error, h, ih]
    | ok sock =>
      simp [List.filterMap_cons, List.filter_cons, listenerOf_ok, bound_ok, h, ih]

theorem filter_enumFrom_all (lc : Nat → Except GoString Nat) (portList : List Int) :
    ∀ i : Nat, (∀ j, i ≤ j → j < i + portList.length → bound (lc j) = true) →
    ((portList.enumFrom i).filter (fun p => bound (lc p.1))).map Prod.snd = portList := by
  induction portList with
  | nil => intro i _; rfl
  | cons port portList ih =>
    intro i h
    have h0 : bound (lc i) = true := h i (le_refl _) (by simp)
    have := ih (i + 1) (fun j h1 h2 => h j (by omega) (by simp only [List.length_cons]; omega))
    simp [List.enumFrom, List.filter_cons, h0, this]

theorem filter_enumFrom_one_failure (lc : Nat → Except GoString Nat) (portList : List Int) :
    ∀ i k : Nat, i ≤ k → k < i + portList.length →
    (∀ j, i ≤ j → j < i + portList.length → (bound (lc j) = false ↔ j = k)) →
    ((portList.enumFrom i).filter (fun p => bound (lc p.1))).map Prod.snd =
      portList.eraseIdx (k - i) := by
  induction portList with
  | nil => intro i k _ h; simp at h; omega
  | cons port portList ih =>
    intro i k hik hk h
    simp only [List.length_cons] at hk h
    by_cases hi : i = k
    · subst hi
      have h0 : bound (lc i) = false := (h i (le_refl _) (by omega)).2 rfl
      have hall := filter_enumFrom_all lc portList (i + 1) (fun j h1 h2 => by
        have := h j (by omega) (by omega)
        cases hb : bound (lc j) with
        | true => rfl
        | false => have := this.1 hb; omega)
      simp [List.enumFrom, List.filter_cons, h0, hall]
    · have h0 : bound (lc i) = true := by
        cases hb : bound (lc i) with
        | true => rfl
        | false => exact absurd ((h i (le_refl _) (by omega)).1 hb) hi
      have := ih (i + 1) k (by omega) (by omega) (fun j h1 h2 => h j (by omega) (by omega))
      have hki : k - i = (k - (i + 1)) + 1 := by omega
      simp [List.enumFrom, List.filter_cons, h0, this, hki]

theorem handleConnections_eq (l : Listener) (its : List Iteration) :
    handleConnections l its =
      (if its.all (fun it => !it.done) then LoopState.looping else LoopState.returned,
        (its.takeWhile (fun it => !it.done)).flatMap (fun it => acceptBranch l it.accept) ++
          if its.all (fun it => !it.done) then []
          else [.log .debug "Stopping listener" (some l.Port) none, .close l]) := by
  induction its with
  | nil => rfl
  | cons it its ih =>
    rw [handleConnections, handleStep]
    cases hd : it.done with
    | true => simp [hd, List.takeWhile]
    | false =>
      simp only [hd, Bool.false_eq_true, if_false, ih, List.all_cons, Bool.not_false,
        Bool.true_and, List.takeWhile, List.flatMap_cons, List.append_assoc]

theorem acceptBranch_closing (l : Listener) (msg : GoString)
    (h : isNetClosingError msg = true) : acceptBranch l (.err msg) = [.accept l] := by
  simp [acceptBranch, h]

theorem acceptBranch_other (l : Listener) (msg : GoString)
    (h : isNetClosingError msg = false) :
    acceptBranch l (.err msg) =
      [.accept l, .log .error "Accept error" (some l.Port) (some msg)] := by
  simp [acceptBranch, h]

theorem isNetClosingError_iff (msg : GoString) :
    isNetClosingError msg = true ↔ "use of closed network connection".toList <:+: msg := by
  rw [isNetClosingError, Contains_iff]

theorem shutdown_closeCalls (closeErr : Nat → Option GoString) (listeners : List Listener) :
    ∀ i : Nat, closeCalls (shutdown closeErr i listeners) = listeners := by
  induction listeners with
  | nil => intro i; rfl
  | cons l listeners ih =>
    intro i
    rw [shutdown, closeCalls_append, closeCalls_append, ih]
    cases closeErr i <;> simp [closeCalls]

theorem shutdown_errors (closeErr : Nat → Option GoString) (listeners : List Listener) :
    ∀ i : Nat, logsAt .error (shutdown closeErr i listeners) =
      (listeners.enumFrom i).filterMap (fun p =>
        (closeErr p.1).map (fun err =>
          Event.log .error "Error closing listener" (some p.2.Port) (some err))) := by
  induction listeners with
  | nil => intro i; rfl
  | cons l listeners ih =>
    intro i
    rw [shutdown, logsAt_append, logsAt_append, ih]
    cases h : closeErr i <;> simp [logsAt, List.enumFrom, h]

theorem shutdown_no_fatal (closeErr : Nat → Option GoString) (listeners : List Listener) :
    ∀ i : Nat, logsAt .fatal (shutdown closeErr i listeners) = [] := by
  induction listeners with
  | nil => intro i; rfl
  | cons l listeners ih =>
    intro i
    rw [shutdown, logsAt_append, logsAt_append, ih]
    cases h : closeErr i <;> simp [logsAt]

/-! ## Supporting results on `parsePorts` and `main` -/

theorem parseLoop_none_head {fuel : Nat} {part : GoString} {portList : List Int}
    (h : parsePart fuel part portList = none) (parts : List GoString) :
    parseLoop fuel (part :: parts) portList = none := by
  rw [parseLoop, h]

theorem parseLoop_error_head {fuel : Nat} {part : GoString} {portList : List Int}
    {e : ParseError} (h : parsePart fuel part portList = some (.error e))
    (parts : List GoString) : parseLoop fuel (part :: parts) portList = some (.error e) := by
  rw [parseLoop, h]

/-- The range from the largest `int` to itself is a well-formed segment. -/
theorem maxRange_wellFormed :
    WellFormed "9223372036854775807-9223372036854775807".toList (.range maxInt maxInt) := by
  refine ⟨"9223372036854775807".toList, "9223372036854775807".toList, rfl, by decide, by decide,
    ?_, ?_, le_refl _, le_refl _⟩ <;> rw [maxInt_eq] <;> rfl

/-- A specification that starts with the range from the largest `int` to itself
never comes back from `parsePorts`, whatever follows. -/
theorem parsePorts_maxRange_first (fuel : Nat) (ports : GoString) (parts : List GoString)
    (h : Split ports ',' = "9223372036854775807-9223372036854775807".toList :: parts) :
    parsePorts fuel ports = none := by
  rw [parsePorts, h]
  exact parseLoop_none_head (parsePart_range_maxInt maxRange_wellFormed fuel []) parts

theorem parsePart_wellFormed_cases {part : GoString} {seg : Segment} (h : WellFormed part seg)
    (fuel : Nat) (portList : List Int) :
    parsePart fuel part portList = none ∨
      parsePart fuel part portList = some (.ok (portList ++ seg.expand)) := by
  cases seg with
  | single n => exact Or.inr (parsePart_single h fuel portList)
  | range a b =>
    cases hP : parsePart fuel part portList with
    | none => exact Or.inl rfl
    | some x =>
      right
      obtain ⟨sa, sb, rfl, hda, hdb, hva, hvb, hab, hfit⟩ := h
      rw [parsePart_range_split hda.no_dash hdb.no_dash, Atoi_of_decimal hda (by omega),
        Atoi_of_decimal hdb (by omega), hva, hvb] at hP
      simp only [gt_iff_lt, not_lt.2 hab, if_false] at hP
      cases hR : rangeLoop fuel a b portList with
      | none => rw [hR] at hP; simp at hP
      | some r =>
        rw [hR] at hP
        simp only [Option.map_some', Option.some.injEq] at hP
        have ha0 : (0 : Int) ≤ a := by rw [← hva]; exact Int.natCast_nonneg _
        rw [← hP, (rangeLoop_returns ha0 hab hfit hR).2]
        rfl

/-- A specification with a range that ends at the largest `int` behind
well-formed segments never comes back from `parsePorts`. -/
theorem parsePorts_never_returns (ports : GoString) (pre rest : List GoString)
    (part : GoString) (segs : List Segment) (a : Int)
    (hsplit : Split ports ',' = pre ++ part :: rest)
    (hw : List.Forall₂ WellFormed pre segs) (hmax : WellFormed part (.range a maxInt))
    (fuel : Nat) : parsePorts fuel ports = none := by
  rw [parsePorts]
  have hs : pre ++ part :: rest = Split ports ',' := hsplit.symm
  rw [← hs]
  generalize ([] : List Int) = portList
  clear hs hsplit
  induction hw generalizing portList with
  | nil => exact parseLoop_none_head (parsePart_range_maxInt hmax fuel portList) rest
  | cons hw1 _ ih =>
    rw [List.cons_append, parseLoop]
    rcases parsePart_wellFormed_cases hw1 fuel portList with h | h
    · rw [h]
    · rw [h]; exact ih _

theorem parsePart_returns (part : GoString) :
    (∃ a, WellFormed part (.range a maxInt)) ∨
      ∃ N, ∀ fuel, N ≤ fuel → ∀ portList, parsePart fuel part portList ≠ none := by
  by_cases hc : Contains part "-".toList = true
  · rcases hsp : Split part '-' with _ | ⟨p0, _ | ⟨p1, _ | ⟨p2, t⟩⟩⟩
    · exact Or.inr ⟨0, fun fuel _ portList => by rw [parsePart, if_pos hc, hsp]; simp⟩
    · exact Or.inr ⟨0, fun fuel _ portList => by rw [parsePart, if_pos hc, hsp]; simp⟩
    · obtain ⟨rfl, h0, h1⟩ := (Split_dash_pair part p0 p1).1 hsp
      cases hA : Atoi p0 with
      | none =>
        exact Or.inr ⟨0, fun fuel _ portList => by
          rw [parsePart_range_split h0 h1, hA]; simp⟩
      | some a =>
        cases hB : Atoi p1 with
        | none =>
          exact Or.inr ⟨0, fun fuel _ portList => by
            rw [parsePart_range_split h0 h1, hA, hB]; simp⟩
        | some b =>
          obtain ⟨hda, hva, hfa⟩ := (Atoi_eq_some_iff p0 h0 a).1 hA
          obtain ⟨hdb, hvb, hfb⟩ := (Atoi_eq_some_iff p1 h1 b).1 hB
          by_cases hgt : a > b
          · exact Or.inr ⟨0, fun fuel _ portList => by
              rw [parsePart_range_split h0 h1, hA, hB]; simp [hgt]⟩
          · have hab : a ≤ b := not_lt.1 hgt
            rcases lt_or_eq_of_le hfb with hlt | heq
            · refine Or.inr ⟨(Segment.range a b).cost, fun fuel hf portList => ?_⟩
              rw [parsePart_range ⟨p0, p1, rfl, hda, hdb, hva, hvb, hab, hfb⟩ hlt fuel hf]
              simp
            · subst heq
              exact Or.inl ⟨a, p0, p1, rfl, hda, hdb, hva, hvb, hab, le_refl _⟩
    · exact Or.inr ⟨0, fun fuel _ portList => by rw [parsePart, if_pos hc, hsp]; simp⟩
  · refine Or.inr ⟨0, fun fuel _ portList => ?_⟩
    rw [parsePart, if_neg hc]
    cases Atoi part <;> simp

theorem parseLoop_returns (parts : List GoString)
    (h : ∀ part ∈ parts, ¬ ∃ a, WellFormed part (.range a maxInt)) :
    ∃ N, ∀ fuel, N ≤ fuel → ∀ portList, parseLoop fuel parts portList ≠ none := by
  induction parts with
  | nil => exact ⟨0, fun fuel _ portList => by simp [parseLoop]⟩
  | cons part parts ih =>
    obtain ⟨N1, h1⟩ := (parsePart_returns part).resolve_left (h part (by simp))
    obtain ⟨N2, h2⟩ := ih (fun p hp => h p (by simp [hp]))
    refine ⟨max N1 N2, fun fuel hf portList => ?_⟩
    rw [parseLoop]
    cases hP : parsePart fuel part portList with
    | none => exact absurd hP (h1 fuel (le_trans (le_max_left _ _) hf) portList)
    | some x =>
      cases x with
      | error e => simp
      | ok l => exact h2 fuel (le_trans (le_max_right _ _) hf) l

/-- On a specification none of whose segments is a well-formed range that ends at
the largest `int`, `parsePorts` returns, with a port list or an error, once the
fuel is large enough. -/
theorem parsePorts_returns (ports : GoString)
    (h : ∀ part ∈ Split ports ',', ¬ ∃ a, WellFormed part (.range a maxInt)) :
    ∃ N, ∀ fuel, N ≤ fuel → parsePorts fuel ports ≠ none := by
  obtain ⟨N, hN⟩ := parseLoop_returns (Split ports ',') h
  exact ⟨N, fun fuel hf => hN fuel hf []⟩

/-- Every specification whose segments are all well-formed, none of them a range
that ends at the largest `int`, parses to the concatenation of the expansions of
its segments, in order, as soon as the fuel covers the longest range. -/
theorem parsePorts_wellFormed (fuel : Nat) (ports : GoString) (segs : List Segment)
    (hw : List.Forall₂ WellFormed (Split ports ',') segs)
    (hr : ∀ seg ∈ segs, seg.Returns) (hf : ∀ seg ∈ segs, seg.cost ≤ fuel) :
    parsePorts fuel ports = some (.ok (segs.flatMap Segment.expand)) := by
  have := parseLoop_prefix fuel [] (Split ports ',') segs [] hw hr hf
  rw [List.append_nil] at this
  rw [parsePorts, this]
  simp [parseLoop]

/-- Conversely a specification that parses has only well-formed segments, none of
them a range that ends at the largest `int`, and parses to their expansions. -/
theorem parsePorts_ok_inv {fuel : Nat} {ports : GoString} {portList : List Int}
    (h : parsePorts fuel ports = some (.ok portList)) :
    ∃ segs, List.Forall₂ WellFormed (Split ports ',') segs ∧ (∀ seg ∈ segs, seg.Returns) ∧
      portList = segs.flatMap Segment.expand := by
  obtain ⟨segs, hw, hr, he⟩ := parseLoop_ok_inv fuel _ _ _ h
  exact ⟨segs, hw, hr, by simpa using he⟩

theorem forall₂_wellFormed_mem {parts : List GoString} {segs : List Segment}
    (h : List.Forall₂ WellFormed parts segs) :
    ∀ seg ∈ segs, ∃ part ∈ parts, WellFormed part seg := by
  induction h with
  | nil => intro seg hs; simp at hs
  | cons hw _ ih =>
    intro seg hs
    rcases List.mem_cons.1 hs with e | e
    · subst e; exact ⟨_, by simp, hw⟩
    · obtain ⟨part, hp, hwf⟩ := ih seg e
      exact ⟨part, by simp [hp], hwf⟩

theorem forall₂_wellFormed_mem_left {parts : List GoString} {segs : List Segment}
    (h : List.Forall₂ WellFormed parts segs) :
    ∀ part ∈ parts, ∃ seg ∈ segs, WellFormed part seg := by
  induction h with
  | nil => intro part hp; simp at hp
  | cons hw _ ih =>
    intro part hp
    rcases List.mem_cons.1 hp with e | e
    · subst e; exact ⟨_, by simp, hw⟩
    · obtain ⟨seg, hs, hwf⟩ := ih part e
      exact ⟨seg, by simp [hs], hwf⟩

theorem rangeLoop_mono (fuel : Nat) : ∀ (port «end» : Int) (portList r : List Int),
    rangeLoop fuel port «end» portList = some r →
    rangeLoop (fuel + 1) port «end» portList = some r := by
  induction fuel with
  | zero => intro port e portList r h; simp [rangeLoop] at h
  | succ f ih =>
    intro port e portList r h
    rw [rangeLoop] at h
    rw [rangeLoop]
    by_cases hle : port ≤ e
    · rw [if_pos hle] at h ⊢
      exact ih _ _ _ _ h
    · rw [if_neg hle] at h ⊢
      exact h

theorem parsePart_mono {fuel : Nat} {part : GoString} {portList : List Int}
    {x : Except ParseError (List Int)} (h : parsePart fuel part portList = some x) :
    parsePart (fuel + 1) part portList = some x := by
  unfold parsePart at h ⊢
  split
  · rename_i hc
    rw [if_pos hc] at h
    split
    · rename_i p0 p1 hsp
      rw [hsp] at h
      simp only at h
      split
      · rename_i hA; rw [hA] at h; exact h
      · rename_i start hA
        rw [hA] at h
        simp only at h
        split
        · rename_i hB; rw [hB] at h; exact h
        · rename_i e hB
          rw [hB] at h
          simp only at h
          split
          · rename_i hgt; rw [if_pos hgt] at h; exact h
          · rename_i hgt
            rw [if_neg hgt] at h
            cases hR : rangeLoop fuel start e portList with
            | none => rw [hR] at h; simp at h
            | some r => rw [hR] at h; rw [rangeLoop_mono fuel _ _ _ _ hR]; exact h
    · rename_i hsp
      split at h
      · rename_i p0 p1 hsp2; exact absurd hsp2 (hsp p0 p1)
      · exact h
  · rename_i hc
    rw [if_neg hc] at h
    exact h

/-- More fuel never changes what `parsePorts` returns. -/
theorem parseLoop_mono (fuel : Nat) : ∀ (parts : List GoString) (portList : List Int)
    (x : Except ParseError (List Int)),
    parseLoop fuel parts portList = some x → parseLoop (fuel + 1) parts portList = some x := by
  intro parts
  induction parts with
  | nil => intro portList x h; exact h
  | cons part parts ih =>
    intro portList x h
    rw [parseLoop] at h
    rw [parseLoop]
    cases hP : parsePart fuel part portList with
    | none => rw [hP] at h; simp at h
    | some y =>
      rw [hP] at h
      rw [parsePart_mono hP]
      cases y with
      | error e => exact h
      | ok l => exact ih _ _ h

/-- What `parsePorts` returns does not depend on the fuel, once there is enough
of it. -/
theorem parsePorts_mono {fuel : Nat} {ports : GoString} {x : Except ParseError (List Int)}
    (h : parsePorts fuel ports = some x) (k : Nat) : parsePorts (fuel + k) ports = some x := by
  induction k with
  | zero => exact h
  | succ k ih => exact parseLoop_mono _ _ _ _ ih

theorem IsDecimal.chars {s : GoString} (h : IsDecimal s) : ∀ c ∈ s, c = '+' ∨ IsDigit c := by
  cases s with
  | nil => intro c hc; simp at hc
  | cons d rest =>
    by_cases hp : d = '+'
    · subst hp
      intro c hc
      rcases List.mem_cons.1 hc with e | e
      · exact Or.inl e
      · exact Or.inr (h.2 c e)
    · intro c hc
      have h2 := h.2
      rw [unsign_of_ne d rest hp] at h2
      exact Or.inr (h2 c hc)

theorem IsDecimal.comma_not_mem {s : GoString} (h : IsDecimal s) : ',' ∉ s := by
  intro hm
  rcases h.chars ',' hm with e | e
  · exact absurd e (by decide)
  · exact absurd e (by decide)

theorem WellFormed.no_comma {part : GoString} {seg : Segment} (h : WellFormed part seg) :
    ',' ∉ part := by
  cases seg with
  | single n => exact h.1.comma_not_mem
  | range a b =>
    obtain ⟨sa, sb, rfl, ha, hb, _⟩ := h
    intro hm
    rcases List.mem_append.1 hm with e | e
    · exact ha.comma_not_mem e
    · rcases List.mem_cons.1 e with e2 | e2
      · exact absurd e2 (by decide)
      · exact hb.comma_not_mem e2

/-- The well-formed segments `part :: parts`, joined with commas, parse to the
concatenation of their expansions, in order. -/
theorem parsePorts_join (fuel : Nat) (part : GoString) (parts : List GoString)
    (segs : List Segment) (hw : List.Forall₂ WellFormed (part :: parts) segs)
    (hr : ∀ seg ∈ segs, seg.Returns) (hf : ∀ seg ∈ segs, seg.cost ≤ fuel) :
    parsePorts fuel (List.intercalate [','] (part :: parts)) =
      some (.ok (segs.flatMap Segment.expand)) := by
  have hs : Split (List.intercalate [','] (part :: parts)) ',' = part :: parts :=
    Split_join ',' part parts (fun p hp => by
      obtain ⟨seg, _, hwf⟩ := forall₂_wellFormed_mem_left hw p hp
      exact hwf.no_comma)
  exact parsePorts_wellFormed fuel _ segs (by rw [hs]; exact hw) hr hf

/-- The examples of the spec; a range of one port; duplicates and order are kept;
integers outside `[1, 65535]` pass through; a plus sign is accepted. -/
theorem parsePorts_examples :
    parsePorts 0 "8080".toList = some (.ok [8080]) ∧
    parsePorts 4 "8000-8002".toList = some (.ok [8000, 8001, 8002]) ∧
    parsePorts 4 "80,90-92,100".toList = some (.ok [80, 90, 91, 92, 100]) ∧
    parsePorts 2 "7-7".toList = some (.ok [7]) ∧
    parsePorts 4 "90-92,91,80,80".toList = some (.ok [90, 91, 92, 91, 80, 80]) ∧
    parsePorts 0 "0,70000".toList = some (.ok [0, 70000]) ∧
    parsePorts 0 "+80".toList = some (.ok [80]) ∧
    parsePorts 0 "9223372036854775807".toList = some (.ok [maxInt]) :=
  ⟨rfl, rfl, rfl, rfl, rfl, rfl, rfl, rfl⟩

/-- A malformed segment behind well-formed ones: the error of that segment is the
result of `parsePorts`. -/
theorem parsePorts_error_after_prefix (fuel : Nat) (ports : GoString)
    (pre rest : List GoString) (part : GoString) (segs : List Segment) (e : ParseError)
    (hsplit : Split ports ',' = pre ++ part :: rest)
    (hw : List.Forall₂ WellFormed pre segs)
    (hr : ∀ seg ∈ segs, seg.Returns) (hf : ∀ seg ∈ segs, seg.cost ≤ fuel)
    (he : ∀ portList, parsePart fuel part portList = some (.error e)) :
    parsePorts fuel ports = some (.error e) := by
  rw [parsePorts, hsplit, parseLoop_prefix fuel (part :: rest) pre segs [] hw hr hf]
  exact parseLoop_error_head (he _) rest

/-- Behind well-formed segments, a segment that is not a decimal integer, or a
range with one end that is not a decimal integer, gives an invalid-port error. -/
theorem parsePorts_invalidPort (fuel : Nat) (ports : GoString)
    (pre rest : List GoString) (part : GoString) (segs : List Segment)
    (hsplit : Split ports ',' = pre ++ part :: rest)
    (hw : List.Forall₂ WellFormed pre segs)
    (hr : ∀ seg ∈ segs, seg.Returns) (hf : ∀ seg ∈ segs, seg.cost ≤ fuel)
    (hbad : ('-' ∉ part ∧ ¬ IsDecimal part) ∨
      ∃ sa sb : GoString, part = sa ++ '-' :: sb ∧ '-' ∉ sa ∧ '-' ∉ sb ∧
        (¬ IsDecimal sa ∨ ¬ IsDecimal sb)) :
    ∃ e, parsePorts fuel ports = some (.error e) ∧ e.isInvalidPort = true := by
  rw [parsePorts, hsplit, parseLoop_prefix fuel (part :: rest) pre segs [] hw hr hf]
  rcases hbad with ⟨hs, hd⟩ | ⟨sa, sb, rfl, ha, hb, hd⟩
  · exact ⟨.invalidPort part, parseLoop_error_head (parsePart_invalidPort hs hd fuel _) rest, rfl⟩
  · rcases parsePart_invalidEnds ha hb hd fuel ([] ++ segs.flatMap Segment.expand) with h | h
    · exact ⟨.invalidStart sa, parseLoop_error_head h rest, rfl⟩
    · exact ⟨.invalidEnd sb, parseLoop_error_head h rest, rfl⟩

/-- Behind well-formed segments, a segment with two or more `-` gives the
invalid-range error, whatever its parts are. -/
theorem parsePorts_invalidRange (fuel : Nat) (ports : GoString)
    (pre rest : List GoString) (part : GoString) (segs : List Segment)
    (hsplit : Split ports ',' = pre ++ part :: rest)
    (hw : List.Forall₂ WellFormed pre segs)
    (hr : ∀ seg ∈ segs, seg.Returns) (hf : ∀ seg ∈ segs, seg.cost ≤ fuel)
    (hbad : 2 ≤ part.count '-') :
    parsePorts fuel ports = some (.error (.invalidRange part)) :=
  parsePorts_error_after_prefix fuel ports pre rest part segs _ hsplit hw hr hf
    (fun portList => parsePart_invalidRange hbad fuel portList)

theorem startListeners_ne_nil (lc : Nat → Except GoString Nat) (portList : List Int)
    (h : ∃ i, i < portList.length ∧ bound (lc i) = true) :
    (startListeners lc 0 portList []).1 ≠ [] := by
  obtain ⟨i, hi, hb⟩ := h
  intro hnil
  have hp := congrArg (List.map Listener.Port) (startListeners_listeners lc portList 0 [])
  rw [hnil, List.nil_append, filterMap_listenerOf_ports] at hp
  have hmem : (i, portList.get ⟨i, hi⟩) ∈ portList.enumFrom 0 := by
    rw [List.mk_mem_enumFrom_iff_le_and_getElem?_sub]
    simp [List.getElem?_eq_getElem hi]
  have : portList.get ⟨i, hi⟩ ∈
      ((portList.enumFrom 0).filter (fun p => bound (lc p.1))).map Prod.snd :=
    List.mem_map.2 ⟨_, List.mem_filter.2 ⟨hmem, hb⟩, rfl⟩
  rw [← hp] at this
  simp at this

theorem startListeners_eq_nil (lc : Nat → Except GoString Nat) (portList : List Int)
    (h : ∀ i, i < portList.length → bound (lc i) = false) :
    (startListeners lc 0 portList []).1 = [] := by
  rw [startListeners_listeners, List.nil_append, List.filterMap_eq_nil_iff]
  intro p hp
  obtain ⟨i, x⟩ := p
  rw [List.mk_mem_enumFrom_iff_le_and_getElem?_sub] at hp
  have hi : i < portList.length := by
    have := hp.2
    simp only [Nat.sub_zero] at this
    exact (List.getElem?_eq_some_iff.1 this).1
  have hb := h i hi
  cases hl : lc i with
  | ok sock => rw [hl] at hb; cases hb
  | error err => simp [hl, listenerOf_error]

/-- The start-up of `main`, by cases on the flag, on what `parsePorts` returns and
on the binds. -/
theorem main_cases (fuel : Nat) (ports : GoString) (lc : Nat → Except GoString Nat) :
    (ports = [] → ∃ tr, main fuel ports lc =
        some (.fatal "No ports specified. Use -p to specify ports.", tr) ∧
        listenCalls tr = []) ∧
    (ports ≠ [] → ∀ e, parsePorts fuel ports = some (.error e) →
      ∃ tr, main fuel ports lc = some (.fatal "Failed to parse ports", tr) ∧
        listenCalls tr = []) ∧
    (ports ≠ [] → ∀ portList, parsePorts fuel ports = some (.ok portList) →
      (∀ i, i < portList.length → bound (lc i) = false) →
      ∃ tr, main fuel ports lc = some (.fatal "No valid ports available", tr) ∧
        listenCalls tr = portList) ∧
    (ports ≠ [] → ∀ portList, parsePorts fuel ports = some (.ok portList) →
      (∃ i, i < portList.length ∧ bound (lc i) = true) →
      ∃ listeners tr, main fuel ports lc = some (.running listeners, tr) ∧
        listeners ≠ [] ∧ listenCalls tr = portList) ∧
    (ports ≠ [] → parsePorts fuel ports = none → main fuel ports lc = none) := by
  refine ⟨?_, ?_, ?_, ?_, ?_⟩
  · intro h
    refine ⟨_, by rw [main, if_pos h], ?_⟩
    rfl
  · intro h e he
    refine ⟨_, by rw [main, if_neg h, he], ?_⟩
    rfl
  · intro h portList hp hb
    have hnil := startListeners_eq_nil lc portList hb
    refine ⟨_, by rw [main, if_neg h, hp]; simp only; rw [if_pos (by rw [hnil]; rfl)], ?_⟩
    simp [listenCalls, listenCalls_append, startListeners_listenCalls]
  · intro h portList hp hb
    have hne := startListeners_ne_nil lc portList hb
    have hlen : ¬ (startListeners lc 0 portList []).1.length = 0 := by
      rw [List.length_eq_zero]; exact hne
    refine ⟨_, _, by rw [main, if_neg h, hp]; simp only; rw [if_neg hlen], hne, ?_⟩
    simp [listenCalls, startListeners_listenCalls]
  · intro h hp
    rw [main, if_neg h, hp]


/-! ## The claims -/

/-- C1, at the input "9223372036854775807-9223372036854775807": the segment is the
well-formed range `a-a` with `a` the largest `int`, and `parsePorts` never returns
on it, whatever the fuel. After `a` is appended, `port++` wraps to the smallest
`int`, which is `≤ end` again. The single port "9223372036854775807" parses to
`[a]`. -/
theorem C1_range_ending_at_maxInt_never_returns :
    WellFormed "9223372036854775807-9223372036854775807".toList (.range maxInt maxInt) ∧
    wrapInt (maxInt + 1) = minInt ∧
    (∀ fuel, parsePorts fuel "9223372036854775807-9223372036854775807".toList = none) ∧
    (∀ fuel, parsePorts fuel "9223372036854775807".toList = some (.ok [maxInt])) :=
  ⟨maxRange_wellFormed, by decide,
    fun fuel => parsePorts_maxRange_first fuel _ [] rfl, fun _ => rfl⟩

/-- C2, as stated, fails at "99999999999999999999-5": both ends are decimal
integers and the start is the larger one, but the start does not fit an `int`, so
the error is "invalid start port", not the range-order error. -/
theorem C2_counterexample :
    IsDecimal "99999999999999999999".toList ∧ IsDecimal "5".toList ∧
    decimalValue "5".toList < decimalValue "99999999999999999999".toList ∧
    parsePorts 8 "99999999999999999999-5".toList =
      some (.error (.invalidStart "99999999999999999999".toList)) ∧
    parsePorts 8 "99999999999999999999-5".toList ≠
      some (.error (.rangeOrder "99999999999999999999-5".toList)) :=
  ⟨by decide, by decide, by decide, rfl, fun h => by cases h⟩

/-- C2, amended: when the segments left of a segment `a-b` are well-formed, none of
them a range that ends at the largest `int`, and `a`, `b` are decimal integers
with `a > b` and `a` fitting an `int`, `parsePorts` returns the range-order error
for that segment (and with it no port list), as soon as the fuel covers the ranges
on the left. -/
theorem C2_range_order_error (fuel : Nat) (ports : GoString)
    (pre rest : List GoString) (sa sb : GoString) (segs : List Segment)
    (hsplit : Split ports ',' = pre ++ (sa ++ '-' :: sb) :: rest)
    (hw : List.Forall₂ WellFormed pre segs)
    (hr : ∀ seg ∈ segs, seg.Returns) (hf : ∀ seg ∈ segs, seg.cost ≤ fuel)
    (ha : IsDecimal sa) (hb : IsDecimal sb)
    (hfit : (decimalValue sa : Int) ≤ maxInt) (hgt : decimalValue sb < decimalValue sa) :
    parsePorts fuel ports = some (.error (.rangeOrder (sa ++ '-' :: sb))) :=
  parsePorts_error_after_prefix fuel ports pre rest _ segs _ hsplit hw hr hf
    (fun portList => parsePart_rangeOrder ha hb hfit hgt fuel portList)

/-- C2, amended, at "80,90-92,9005-9000,100". -/
theorem C2_range_order_error_witness :
    parsePorts 4 "80,90-92,9005-9000,100".toList =
      some (.error (.rangeOrder "9005-9000".toList)) :=
  C2_range_order_error 4 "80,90-92,9005-9000,100".toList
    ["80".toList, "90-92".toList] ["100".toList] "9005".toList "9000".toList
    [.single 80, .range 90 92] rfl
    (.cons ⟨by decide, rfl, by decide⟩
      (.cons ⟨"90".toList, "92".toList, rfl, by decide, by decide, rfl, rfl, by decide,
        by decide⟩ .nil))
    (by decide) (by decide) (by decide) (by decide) (by decide) (by decide)

/-- C3, at the input "9223372036854775807-9223372036854775807,abc": the leftmost
malformed segment is "abc", which has no `-` and is not a decimal integer, and the
segment on its left is well-formed; `parsePorts` never returns, so it reports no
invalid-port error. On "abc" alone it does. -/
theorem C3_invalid_port_behind_maxInt_range_never_returns :
    Split "9223372036854775807-9223372036854775807,abc".toList ',' =
      ["9223372036854775807-9223372036854775807".toList, "abc".toList] ∧
    WellFormed "9223372036854775807-9223372036854775807".toList (.range maxInt maxInt) ∧
    '-' ∉ "abc".toList ∧ ¬ IsDecimal "abc".toList ∧
    (∀ fuel, parsePorts fuel "9223372036854775807-9223372036854775807,abc".toList = none) ∧
    (∀ fuel, parsePorts fuel "abc".toList = some (.error (.invalidPort "abc".toList))) :=
  ⟨rfl, maxRange_wellFormed, by decide, by decide,
    fun fuel => parsePorts_maxRange_first fuel _ ["abc".toList] rfl, fun _ => rfl⟩

/-- C4, at the input "9223372036854775807-9223372036854775807,1-2-3": the leftmost
malformed segment is "1-2-3", with two `-`, and the segment on its left is
well-formed; `parsePorts` never returns, so it reports no invalid-range error. On
"1-2-3" and on "a-b-c" alone it does. -/
theorem C4_invalid_range_behind_maxInt_range_never_returns :
    Split "9223372036854775807-9223372036854775807,1-2-3".toList ',' =
      ["9223372036854775807-9223372036854775807".toList, "1-2-3".toList] ∧
    WellFormed "9223372036854775807-9223372036854775807".toList (.range maxInt maxInt) ∧
    2 ≤ "1-2-3".toList.count '-' ∧
    (∀ fuel, parsePorts fuel "9223372036854775807-9223372036854775807,1-2-3".toList = none) ∧
    (∀ fuel, parsePorts fuel "1-2-3".toList = some (.error (.invalidRange "1-2-3".toList))) ∧
    (∀ fuel, parsePorts fuel "a-b-c".toList = some (.error (.invalidRange "a-b-c".toList))) :=
  ⟨rfl, maxRange_wellFormed, by decide,
    fun fuel => parsePorts_maxRange_first fuel _ ["1-2-3".toList] rfl, fun _ => rfl, fun _ => rfl⟩

/-- C5, at the flag "9223372036854775807-9223372036854775807": the flag is not
empty and `parsePorts` reports no error on it, yet `main` reaches neither a fatal
exit nor the Running state, whatever the fuel and the binds, because `parsePorts`
never returns. -/
theorem C5_main_never_leaves_parsePorts :
    "9223372036854775807-9223372036854775807".toList ≠ [] ∧
    (∀ fuel e, parsePorts fuel "9223372036854775807-9223372036854775807".toList ≠
      some (.error e)) ∧
    (∀ fuel lc, main fuel "9223372036854775807-9223372036854775807".toList lc = none) := by
  have hp : ∀ fuel, parsePorts fuel "9223372036854775807-9223372036854775807".toList = none :=
    fun fuel => parsePorts_maxRange_first fuel _ [] rfl
  refine ⟨by decide, ?_, ?_⟩
  · intro fuel e h
    rw [hp fuel] at h
    cases h
  · intro fuel lc
    exact (main_cases fuel _ lc).2.2.2.2 (by decide) (hp fuel)

/-- C6: the reservation loop calls `lc.Listen` once for every position of the port
list, in list order, whatever the outcomes; the listeners it collects are those of
the positions whose bind succeeded, in list order; and when exactly one position
fails, the ports held are the port list without that position. -/
theorem C6_reservation_loop (lc : Nat → Except GoString Nat) (portList : List Int) :
    listenCalls (startListeners lc 0 portList []).2 = portList ∧
    (startListeners lc 0 portList []).1 =
      portList.enum.filterMap (fun p => listenerOf p.2 (lc p.1)) ∧
    (startListeners lc 0 portList []).1.map Listener.Port =
      (portList.enum.filter (fun p => bound (lc p.1))).map Prod.snd ∧
    (∀ k, k < portList.length →
      (∀ j, j < portList.length → (bound (lc j) = false ↔ j = k)) →
      (startListeners lc 0 portList []).1.map Listener.Port = portList.eraseIdx k) := by
  have h1 := startListeners_listeners lc portList 0 []
  rw [List.nil_append] at h1
  refine ⟨startListeners_listenCalls lc portList 0 [], h1, ?_, ?_⟩
  · rw [h1, List.enum, filterMap_listenerOf_ports]
  · intro k hk h
    rw [h1, filterMap_listenerOf_ports,
      filter_enumFrom_one_failure lc portList 0 k (Nat.zero_le _) (by omega)
        (fun j _ h2 => h j (by omega))]
    rfl

/-- C6 at the port list `[80, 81, 82]` with the second bind failing. -/
theorem C6_reservation_loop_witness :
    (startListeners (fun i => if i = 1 then .error "address already in use".toList else .ok i)
      0 [80, 81, 82] []).1.map Listener.Port = [80, 82] :=
  (C6_reservation_loop (fun i => if i = 1 then .error "address already in use".toList else .ok i)
    [80, 81, 82]).2.2.2 1 (by decide) (by decide)

/-- C7, as stated, fails at "0,70000": `parsePorts` succeeds and returns both
integers, neither of which is in `[1, 65535]`. -/
theorem C7_counterexample :
    parsePorts 0 "0,70000".toList = some (.ok [0, 70000]) ∧
    ¬ (∀ p ∈ [(0 : Int), 70000], 1 ≤ p ∧ p ≤ 65535) :=
  ⟨rfl, by decide⟩

/-- C7, amended: every element of a port list that `parsePorts` returns is between
`0` and the largest `int`. -/
theorem C7_ports_nonnegative_ints (fuel : Nat) (ports : GoString) (portList : List Int)
    (h : parsePorts fuel ports = some (.ok portList)) :
    ∀ p ∈ portList, 0 ≤ p ∧ p ≤ maxInt := by
  obtain ⟨segs, hw, _, rfl⟩ := parsePorts_ok_inv h
  intro p hp
  obtain ⟨seg, hseg, hps⟩ := List.mem_flatMap.1 hp
  obtain ⟨part, _, hwf⟩ := forall₂_wellFormed_mem hw seg hseg
  exact hwf.expand_bounds p hps

/-- C7, amended, at "80,90-92,100". -/
theorem C7_ports_nonnegative_ints_witness :
    parsePorts 4 "80,90-92,100".toList = some (.ok [80, 90, 91, 92, 100]) ∧
    (0 ≤ (91 : Int) ∧ (91 : Int) ≤ maxInt) :=
  ⟨rfl, C7_ports_nonnegative_ints 4 "80,90-92,100".toList [80, 90, 91, 92, 100] rfl 91
    (by decide)⟩


/-- C8: run over the observations of its first passes, the accept loop has
returned exactly when some pass observed the cancellation signal set; the passes
before the first such pass each ran the accept branch, that pass logged and closed
the listener, and no later observation counts; while no pass observes the signal
the loop is still running, whatever the accepts returned. An accept error leaves an
error-level log line exactly when its message does not contain "use of closed
network connection", and an accepted connection leaves none. -/
theorem C8_accept_loop (l : Listener) (its : List Iteration) :
    ((handleConnections l its).1 = .returned ↔ ∃ it ∈ its, it.done = true) ∧
    (∀ pre it post, its = pre ++ it :: post → (∀ x ∈ pre, x.done = false) → it.done = true →
      handleConnections l its =
        (.returned, pre.flatMap (fun x => acceptBranch l x.accept) ++
          [.log .debug "Stopping listener" (some l.Port) none, .close l])) ∧
    ((∀ x ∈ its, x.done = false) →
      handleConnections l its = (.looping, its.flatMap (fun x => acceptBranch l x.accept))) ∧
    (∀ msg, logsAt .error (acceptBranch l (.err msg)) ≠ [] ↔
      ¬ "use of closed network connection".toList <:+: msg) ∧
    (∀ msg, logsAt .error (acceptBranch l (.err msg)) ≠ [] →
      logsAt .error (acceptBranch l (.err msg)) =
        [.log .error "Accept error" (some l.Port) (some msg)]) ∧
    (∀ c, logsAt .error (acceptBranch l (.conn c)) = []) := by
  refine ⟨?_, ?_, ?_, ?_, ?_, ?_⟩
  · rw [handleConnections_eq]
    by_cases h : its.all (fun it => !it.done) = true
    · simp only [h, if_true]
      constructor
      · intro h2; cases h2
      · rintro ⟨it, hit, hd⟩
        have := List.all_eq_true.1 h it hit
        simp [hd] at this
    · simp only [h]
      simp only [Bool.false_eq_true, if_false, true_iff]
      simp only [List.all_eq_true, not_forall] at h
      obtain ⟨it, hit, hd⟩ := h
      exact ⟨it, hit, by simpa using hd⟩
  · rintro pre it post rfl hpre hit
    rw [handleConnections_eq]
    have hall : (pre ++ it :: post).all (fun it => !it.done) = false := by
      simp [hit]
    have htw : (pre ++ it :: post).takeWhile (fun it => !it.done) = pre := by
      rw [List.takeWhile_append_of_pos (fun x hx => by simp [hpre x hx])]
      simp [List.takeWhile, hit]
    simp only [hall, htw, Bool.false_eq_true, if_false]
  · intro h
    rw [handleConnections_eq]
    have hall : its.all (fun it => !it.done) = true := by
      rw [List.all_eq_true]; intro x hx; simp [h x hx]
    have htw : its.takeWhile (fun it => !it.done) = its := by
      rw [List.takeWhile_eq_self_iff]; intro x hx; simp [h x hx]
    simp only [hall, htw, if_true, List.append_nil]
  · intro msg
    rw [← isNetClosingError_iff]
    cases h : isNetClosingError msg with
    | true => rw [acceptBranch_closing l msg h]; simp [logsAt]
    | false => rw [acceptBranch_other l msg h]; simp [logsAt]
  · intro msg h
    cases h2 : isNetClosingError msg with
    | true => rw [acceptBranch_closing l msg h2] at h; simp [logsAt] at h
    | false => rw [acceptBranch_other l msg h2]; simp [logsAt]
  · intro c
    simp [acceptBranch, logsAt]

/-- C8 on five passes: a connection, a closed-listener error, another error, the
signal, and a pass that is never made. -/
theorem C8_accept_loop_witness :
    handleConnections ⟨7, 8080⟩
      [⟨false, .conn 1⟩, ⟨false, .err "use of closed network connection".toList⟩,
        ⟨false, .err "too many open files".toList⟩, ⟨true, .conn 2⟩, ⟨false, .conn 3⟩] =
      (.returned,
        [.accept ⟨7, 8080⟩, .log .debug "Received connection" (some 8080) none,
          .discard ⟨7, 8080⟩ 1,
          .accept ⟨7, 8080⟩,
          .accept ⟨7, 8080⟩,
          .log .error "Accept error" (some 8080) (some "too many open files".toList),
          .log .debug "Stopping listener" (some 8080) none, .close ⟨7, 8080⟩]) :=
  (C8_accept_loop ⟨7, 8080⟩ _).2.1
    [⟨false, .conn 1⟩, ⟨false, .err "use of closed network connection".toList⟩,
      ⟨false, .err "too many open files".toList⟩] ⟨true, .conn 2⟩ [⟨false, .conn 3⟩]
    rfl (by decide) rfl

/-- C9: whatever the `Close` calls return, `shutdown` calls `Close` once on every
listener of the list, in list order; the error-level log lines are those of the
listeners whose `Close` returned an error, one each, in list order; nothing is
logged at fatal level, and the function hands nothing back to its caller. -/
theorem C9_shutdown_closes_all (closeErr : Nat → Option GoString) (listeners : List Listener) :
    closeCalls (shutdown closeErr 0 listeners) = listeners ∧
    logsAt .error (shutdown closeErr 0 listeners) =
      listeners.enum.filterMap (fun p =>
        (closeErr p.1).map (fun err =>
          Event.log .error "Error closing listener" (some p.2.Port) (some err))) ∧
    logsAt .fatal (shutdown closeErr 0 listeners) = [] :=
  ⟨shutdown_closeCalls closeErr listeners 0, shutdown_errors closeErr listeners 0,
    shutdown_no_fatal closeErr listeners 0⟩

/-- A port list that `parsePorts` returns is never empty; a specification with an
empty segment is never parsed to a port list, and it gets an error once the fuel
is large enough when none of its segments is a range that ends at the largest
`int`; the specifications "", ",", "80," and "80,,90" give an error; and whenever
`main` gets past the parse, the reservation loop makes at least one bind
attempt. -/
theorem parsePorts_nonempty :
    (∀ fuel ports portList, parsePorts fuel ports = some (.ok portList) → portList ≠ []) ∧
    (∀ fuel ports portList, [] ∈ Split ports ',' → parsePorts fuel ports ≠ some (.ok portList)) ∧
    (∀ ports, [] ∈ Split ports ',' →
      (∀ part ∈ Split ports ',', ¬ ∃ a, WellFormed part (.range a maxInt)) →
      ∃ N, ∀ fuel, N ≤ fuel → ∃ e, parsePorts fuel ports = some (.error e)) ∧
    (∀ fuel, parsePorts fuel "".toList = some (.error (.invalidPort []))) ∧
    (∀ fuel, parsePorts fuel ",".toList = some (.error (.invalidPort []))) ∧
    (∀ fuel, parsePorts fuel "80,".toList = some (.error (.invalidPort []))) ∧
    (∀ fuel, parsePorts fuel "80,,90".toList = some (.error (.invalidPort []))) ∧
    (∀ fuel ports lc st tr, main fuel ports lc = some (st, tr) →
      st ≠ .fatal "No ports specified. Use -p to specify ports." →
      st ≠ .fatal "Failed to parse ports" → listenCalls tr ≠ []) := by
  have hne : ∀ fuel ports portList, parsePorts fuel ports = some (.ok portList) →
      portList ≠ [] := by
    intro fuel ports portList h
    obtain ⟨segs, hw, _, rfl⟩ := parsePorts_ok_inv h
    cases hw with
    | cons hw1 _ =>
      intro hnil
      rw [List.flatMap_cons, List.append_eq_nil] at hnil
      exact hw1.expand_ne_nil hnil.1
  have hempty : ∀ fuel ports portList, [] ∈ Split ports ',' →
      parsePorts fuel ports ≠ some (.ok portList) := by
    intro fuel ports portList hmem h
    obtain ⟨segs, hw, _, _⟩ := parsePorts_ok_inv h
    obtain ⟨seg, _, hwf⟩ := forall₂_wellFormed_mem_left hw [] hmem
    cases seg with
    | single n => exact absurd hwf.1 (by decide)
    | range a b =>
      obtain ⟨sa, sb, he, _⟩ := hwf
      simp at he
  refine ⟨hne, hempty, ?_, fun _ => rfl, fun _ => rfl, fun _ => rfl, fun _ => rfl, ?_⟩
  · intro ports hmem hmax
    obtain ⟨N, hN⟩ := parsePorts_returns ports hmax
    refine ⟨N, fun fuel hf => ?_⟩
    cases hP : parsePorts fuel ports with
    | none => exact absurd hP (hN fuel hf)
    | some x =>
      cases x with
      | error e => exact ⟨e, rfl⟩
      | ok l => exact absurd hP (hempty fuel ports l hmem)
  · intro fuel ports lc st tr h h1 h2
    obtain ⟨c1, c2, c3, c4, c5⟩ := main_cases fuel ports lc
    by_cases hp : ports = []
    · obtain ⟨tr2, hm, _⟩ := c1 hp
      rw [hm] at h
      simp only [Option.some.injEq, Prod.mk.injEq] at h
      exact absurd h.1.symm h1
    · cases hP : parsePorts fuel ports with
      | none => rw [c5 hp hP] at h; cases h
      | some x =>
        cases x with
        | error e =>
          obtain ⟨tr2, hm, _⟩ := c2 hp e hP
          rw [hm] at h
          simp only [Option.some.injEq, Prod.mk.injEq] at h
          exact absurd h.1.symm h2
        | ok portList =>
          have hl : listenCalls tr = portList := by
            by_cases hb : ∃ i, i < portList.length ∧ bound (lc i) = true
            · obtain ⟨ls, tr2, hm, _, htr⟩ := c4 hp portList hP hb
              rw [hm] at h
              simp only [Option.some.injEq, Prod.mk.injEq] at h
              rw [← h.2]; exact htr
            · have hb2 : ∀ i, i < portList.length → bound (lc i) = false := by
                intro i hi
                cases hbi : bound (lc i) with
                | false => rfl
                | true => exact absurd ⟨i, hi, hbi⟩ hb
              obtain ⟨tr2, hm, htr⟩ := c3 hp portList hP hb2
              rw [hm] at h
              simp only [Option.some.injEq, Prod.mk.injEq] at h
              rw [← h.2]; exact htr
          rw [hl]
          exact hne fuel ports portList hP

/-- C10, at the input "9223372036854775807-9223372036854775807,": the
specification has an empty segment, behind a well-formed range whose ends fit an
`int`, and `parsePorts` does not fail on it: it returns no error and no port list,
whatever the fuel, because the range loop of the first segment never ends. With
the empty segment in front, ",9223372036854775807-9223372036854775807", and on
"80,", the error is returned. -/
theorem C10_empty_segment_behind_maxInt_range_never_returns :
    Split "9223372036854775807-9223372036854775807,".toList ',' =
      ["9223372036854775807-9223372036854775807".toList, []] ∧
    [] ∈ Split "9223372036854775807-9223372036854775807,".toList ',' ∧
    WellFormed "9223372036854775807-9223372036854775807".toList (.range maxInt maxInt) ∧
    (∀ fuel, parsePorts fuel "9223372036854775807-9223372036854775807,".toList = none) ∧
    (∀ fuel e, parsePorts fuel "9223372036854775807-9223372036854775807,".toList ≠
      some (.error e)) ∧
    (∀ fuel, parsePorts fuel ",9223372036854775807-9223372036854775807".toList =
      some (.error (.invalidPort []))) ∧
    (∀ fuel, parsePorts fuel "80,".toList = some (.error (.invalidPort []))) := by
  have hp : ∀ fuel, parsePorts fuel "9223372036854775807-9223372036854775807,".toList = none :=
    fun fuel => parsePorts_maxRange_first fuel _ [[]] rfl
  refine ⟨rfl, by decide, maxRange_wellFormed, hp, ?_, fun _ => rfl, fun _ => rfl⟩
  intro fuel e h
  rw [hp fuel] at h
  cases h

end PortHog
